import Mathlib

/-!
Verification development for the octree of the gravity simulator.

The embedding models `src/src/octree.cpp` over exact rationals: particle
payloads are identifiers (`ℕ`) with externally supplied position and mass
maps (mirroring the shared `ParticlePtr` references whose positions the
simulation mutates between tree operations), C++ exceptions are
`Except String` errors carrying the thrown message, the undefined
behaviours reachable in the source (reading `top()` of an empty
`std::stack`, dereferencing `begin()` of an empty particle list) are
distinguished error values, and the potentially unbounded recursion of
node construction is made total with an explicit fuel argument whose
exhaustion is a distinguished error as well.
-/

/-- Addition on `ℚ` computed through `Rat.divInt` (kernel-reducible, unlike
the irreducible `Rat.add` behind `+`); proved equal to `+` below. -/
def qAdd (a b : ℚ) : ℚ :=
  Rat.divInt (a.num * (b.den : ℤ) + b.num * (a.den : ℤ)) ((a.den : ℤ) * (b.den : ℤ))

/-- Subtraction on `ℚ` computed through `Rat.divInt`; proved equal to `-`
below. -/
def qSub (a b : ℚ) : ℚ :=
  Rat.divInt (a.num * (b.den : ℤ) - b.num * (a.den : ℤ)) ((a.den : ℤ) * (b.den : ℤ))

/-- Multiplication on `ℚ` computed through `Rat.divInt`; proved equal to `*`
below. -/
def qMul (a b : ℚ) : ℚ :=
  Rat.divInt (a.num * b.num) ((a.den : ℤ) * (b.den : ℤ))

/-- Division on `ℚ` computed through `Rat.divInt` (zero divisor yields zero,
as in Mathlib); proved equal to `/` below. -/
def qDiv (a b : ℚ) : ℚ :=
  Rat.divInt (a.num * (b.den : ℤ)) ((a.den : ℤ) * b.num)

/-- The literal `0.5` of the source (exact in both binary floats and `ℚ`). -/
def qHalf : ℚ :=
  Rat.divInt 1 2

/-- 3D vector of rationals, modelling `gravity::Vec3` (floats in source). -/
structure Vec3 where
  x : ℚ
  y : ℚ
  z : ℚ
  deriving DecidableEq

instance : Add Vec3 := ⟨fun a b => ⟨qAdd a.x b.x, qAdd a.y b.y, qAdd a.z b.z⟩⟩

instance : Sub Vec3 := ⟨fun a b => ⟨qSub a.x b.x, qSub a.y b.y, qSub a.z b.z⟩⟩

instance : Zero Vec3 := ⟨⟨0, 0, 0⟩⟩

/-- Scalar multiple on the right, `vec * scalar` in the source. -/
instance : HMul Vec3 ℚ Vec3 := ⟨fun v q => ⟨qMul v.x q, qMul v.y q, qMul v.z q⟩⟩

/-- Scalar multiple on the left, `scalar * vec` in the source. -/
instance : HMul ℚ Vec3 Vec3 := ⟨fun q v => ⟨qMul q v.x, qMul q v.y, qMul q v.z⟩⟩

/-- `Octree::Domain`: an axis-aligned box given by its two corner extremes. -/
structure Domain where
  dmin : Vec3
  dmax : Vec3
  deriving DecidableEq

/-- The normalizing constructor `Domain(Vec3 v1, Vec3 v2)`: componentwise
min/max of the two arguments. -/
def Domain.make (v1 v2 : Vec3) : Domain :=
  ⟨⟨min v1.x v2.x, min v1.y v2.y, min v1.z v2.z⟩,
   ⟨max v1.x v2.x, max v1.y v2.y, max v1.z v2.z⟩⟩

/-- `Domain::isInDomain`: half-open membership on each axis. -/
def Domain.isInDomain (d : Domain) (pos : Vec3) : Bool :=
  (decide (d.dmin.x ≤ pos.x) && decide (pos.x < d.dmax.x)) &&
  (decide (d.dmin.y ≤ pos.y) && decide (pos.y < d.dmax.y)) &&
  (decide (d.dmin.z ≤ pos.z) && decide (pos.z < d.dmax.z))

/-- The local `mid` computed by `getOctantIndex` and `getOctantDomain`:
`min_ + ((max_ - min_) * 0.5)`. -/
def Domain.midpoint (d : Domain) : Vec3 :=
  d.dmin + ((d.dmax - d.dmin) * qHalf)

/-- The local `span` of `getOctantDomain`: `max_ - min_`. -/
def Domain.span (d : Domain) : Vec3 :=
  d.dmax - d.dmin

/-- `Domain::getOctantIndex`: nested comparison against the midpoint,
z then y then x, `≥ mid` first. -/
def Domain.getOctantIndex (d : Domain) (pos : Vec3) : ℤ :=
  if d.midpoint.z ≤ pos.z then
    if d.midpoint.y ≤ pos.y then
      if d.midpoint.x ≤ pos.x then 0 else 1
    else
      if d.midpoint.x ≤ pos.x then 2 else 3
  else
    if d.midpoint.y ≤ pos.y then
      if d.midpoint.x ≤ pos.x then 4 else 5
    else
      if d.midpoint.x ≤ pos.x then 6 else 7

/-- `Domain::getOctantDomain`: range-check the index, pick the outer corner
per the source's switch (including the `case 6` value written there:
`min_ - Vec3{span.x, 0, 0}`), and normalize through the Domain
constructor. -/
def Domain.getOctantDomain (d : Domain) (octantIndex : ℤ) : Except String Domain :=
  if 8 ≤ octantIndex ∨ octantIndex < 0 then
    .error "Invalid octant index"
  else
    let outerCorner : Vec3 :=
      if octantIndex = 0 then d.dmax
      else if octantIndex = 1 then d.dmax - Vec3.mk d.span.x 0 0
      else if octantIndex = 2 then d.dmax - Vec3.mk 0 d.span.y 0
      else if octantIndex = 3 then d.dmin + Vec3.mk 0 0 d.span.z
      else if octantIndex = 4 then d.dmax - Vec3.mk 0 0 d.span.z
      else if octantIndex = 5 then d.dmin + Vec3.mk 0 d.span.y 0
      else if octantIndex = 6 then d.dmin - Vec3.mk d.span.x 0 0
      else d.dmin
    .ok (Domain.make d.midpoint outerCorner)

/-- `Octree::Node`: aggregate center of mass, aggregate mass, domain, the
particle identifiers held anywhere in this subtree, and child nodes. -/
inductive Node where
  | mk (centerOfMass : Vec3) (mass : ℚ) (domain : Domain) (particles : List ℕ)
      (children : List Node)

def Node.centerOfMass : Node → Vec3
  | .mk c _ _ _ _ => c

def Node.mass : Node → ℚ
  | .mk _ m _ _ _ => m

def Node.domain : Node → Domain
  | .mk _ _ d _ _ => d

def Node.particles : Node → List ℕ
  | .mk _ _ _ ps _ => ps

def Node.children : Node → List Node
  | .mk _ _ _ _ ch => ch

/-- The default-constructed Node of the source: zero center of mass, mass 1,
default domain, no particles, no children. -/
instance : Inhabited Node :=
  ⟨.mk ⟨0, 0, 0⟩ 1 ⟨⟨0, 0, 0⟩, ⟨0, 0, 0⟩⟩ [] []⟩

/-- `Node::contains`: linear scan of this node's particle list. -/
def Node.contains (n : Node) (p : ℕ) : Bool :=
  n.particles.contains p

/-- `Node::isExteriorNode`: no children. -/
def Node.isExteriorNode (n : Node) : Bool :=
  n.children.isEmpty

/-- `Node::computeMass`: running sum of the nodes' masses. -/
def Node.computeMass (nodes : List Node) : ℚ :=
  nodes.foldl (fun s n => qAdd s n.mass) 0

/-- `Node::computeCenterOfMass`: running mass-weighted position sum and mass
sum, then `sumProduct * (1 / sumMass)`. -/
def Node.computeCenterOfMass (nodes : List Node) : Vec3 :=
  let acc := nodes.foldl
    (fun (a : Vec3 × ℚ) n => (a.1 + n.mass * n.centerOfMass, qAdd a.2 n.mass))
    (⟨0, 0, 0⟩, 0)
  acc.1 * (qDiv 1 acc.2)

/-- Sum of the masses of a list of particle identifiers. -/
def psum (μ : ℕ → ℚ) : List ℕ → ℚ
  | [] => 0
  | p :: rest => qAdd (μ p) (psum μ rest)

/-- The particles of `parts` that `buildChildren` pushes into octant bucket
`i` (a single pass of `push_back`s, so source order is preserved). -/
def bucket (π : ℕ → Vec3) (d : Domain) (parts : List ℕ) (i : ℤ) : List ℕ :=
  parts.filter (fun p => decide (Domain.getOctantIndex d (π p) = i))

/-- The loop indices `0 ≤ i < octants.size()` of `buildChildren`. -/
def octIdxList : List ℤ :=
  [0, 1, 2, 3, 4, 5, 6, 7]

mutual

/-- `Node::Node(const ParticleList&, Domain)`: build children first (the
member initializer), then the (dead) emptiness check, then aggregates:
a leaf takes its particle's mass and position via `updateNodeValues`, an
internal node aggregates over its children. -/
def Node.build : ℕ → (ℕ → Vec3) → (ℕ → ℚ) → List ℕ → Domain → Except String Node
  | 0, _, _, _, _ => .error "OUT_OF_FUEL"
  | Nat.succ f, π, μ, particles, domain =>
    match Node.buildChildren f π μ particles domain with
    | .error e => .error e
    | .ok children =>
      if particles.isEmpty then .error "Node must contain at least one Particle"
      else if children.isEmpty then
        match particles with
        | [] => .error "UB_EMPTY_PARTICLES"
        | p :: _ => .ok (.mk (π p) (μ p) domain particles [])
      else
        .ok (.mk (Node.computeCenterOfMass children) (Node.computeMass children)
              domain particles children)

/-- `Node::buildChildren`: throw on the empty list, return no children for a
singleton, otherwise bucket by octant index and build one child per
non-empty bucket. -/
def Node.buildChildren : ℕ → (ℕ → Vec3) → (ℕ → ℚ) → List ℕ → Domain →
    Except String (List Node)
  | f, π, μ, particles, domain =>
    if particles.isEmpty then .error "Must be at least one particle in list"
    else if particles.length = 1 then .ok []
    else
      match f with
      | 0 => .error "OUT_OF_FUEL"
      | Nat.succ f2 => Node.buildOctants f2 π μ particles domain octIdxList

/-- The `for (int i = 0; i < octants.size(); i++)` loop of `buildChildren`. -/
def Node.buildOctants : ℕ → (ℕ → Vec3) → (ℕ → ℚ) → List ℕ → Domain → List ℤ →
    Except String (List Node)
  | _, _, _, _, _, [] => .ok []
  | 0, _, _, _, _, _ :: _ => .error "OUT_OF_FUEL"
  | Nat.succ f, π, μ, particles, domain, i :: rest =>
    if (bucket π domain particles i).isEmpty then
      Node.buildOctants f π μ particles domain rest
    else
      match Domain.getOctantDomain domain i with
      | .error e => .error e
      | .ok d2 =>
        match Node.build f π μ (bucket π domain particles i) d2 with
        | .error e => .error e
        | .ok child =>
          match Node.buildOctants f π μ particles domain rest with
          | .error e => .error e
          | .ok others => .ok (child :: others)

end

mutual

/-- `Node::addParticle`: domain check, duplicate check (both before any
mutation), append the particle to this node's list; a former leaf builds
children from the two-element list, an internal node delegates to the
first child whose domain holds the position or else appends a fresh
single-particle leaf child for the position's octant; finally the
aggregates are recomputed from the updated child list. -/
def Node.addParticle : ℕ → (ℕ → Vec3) → (ℕ → ℚ) → Node → ℕ → Except String Node
  | f, π, μ, n, p =>
    if (n.domain.isInDomain (π p)) = false then
      .error "Particle is not in the Node's Domain"
    else if n.contains p then
      .error "Particle is already held by the Node"
    else
      match f with
      | 0 => .error "OUT_OF_FUEL"
      | Nat.succ f2 =>
        if n.children.isEmpty then
          match Node.buildChildren f2 π μ (n.particles ++ [p]) n.domain with
          | .error e => .error e
          | .ok ch =>
            .ok (.mk (Node.computeCenterOfMass ch) (Node.computeMass ch)
                  n.domain (n.particles ++ [p]) ch)
        else
          match Node.addToChildren f2 π μ p n.children with
          | .error e => .error e
          | .ok (some ch2) =>
            .ok (.mk (Node.computeCenterOfMass ch2) (Node.computeMass ch2)
                  n.domain (n.particles ++ [p]) ch2)
          | .ok none =>
            match n.domain.getOctantDomain (n.domain.getOctantIndex (π p)) with
            | .error e => .error e
            | .ok nd =>
              let ch2 := n.children ++ [Node.mk (π p) (μ p) nd [p] []]
              .ok (.mk (Node.computeCenterOfMass ch2) (Node.computeMass ch2)
                    n.domain (n.particles ++ [p]) ch2)

/-- The delegation loop of `addParticle`: recurse into the first child whose
domain holds the position (returning the updated child list), `none` when
no child's domain matches. -/
def Node.addToChildren : ℕ → (ℕ → Vec3) → (ℕ → ℚ) → ℕ → List Node →
    Except String (Option (List Node))
  | _, _, _, _, [] => .ok none
  | 0, _, _, _, _ :: _ => .error "OUT_OF_FUEL"
  | Nat.succ f, π, μ, p, c :: rest =>
    if c.domain.isInDomain (π p) then
      match Node.addParticle f π μ c p with
      | .error e => .error e
      | .ok c2 => .ok (some (c2 :: rest))
    else
      match Node.addToChildren f π μ p rest with
      | .error e => .error e
      | .ok none => .ok none
      | .ok (some rest2) => .ok (some (c :: rest2))

end

mutual

/-- `Node::removeParticle`: membership check, erase the first occurrence
from this node's list, then fix the first child that holds the particle:
an exterior child is erased from the child list, an interior child gets
the recursive removal. The aggregate mass and center of mass are not
recomputed anywhere in this operation. -/
def Node.removeParticle : ℕ → Node → ℕ → Except String Node
  | f, n, p =>
    if (n.contains p) = false then
      .error "Particle is not held in the node"
    else
      match f with
      | 0 => .error "OUT_OF_FUEL"
      | Nat.succ f2 =>
        match Node.removeFromChildren f2 p n.children with
        | .error e => .error e
        | .ok ch2 =>
          .ok (.mk n.centerOfMass n.mass n.domain (n.particles.erase p) ch2)

/-- The child-fixing loop of `removeParticle`, stopping at the first child
that holds the particle. -/
def Node.removeFromChildren : ℕ → ℕ → List Node → Except String (List Node)
  | _, _, [] => .ok []
  | 0, _, _ :: _ => .error "OUT_OF_FUEL"
  | Nat.succ f, p, c :: rest =>
    if c.contains p then
      if c.isExteriorNode then .ok rest
      else
        match Node.removeParticle f c p with
        | .error e => .error e
        | .ok c2 => .ok (c2 :: rest)
    else
      match Node.removeFromChildren f p rest with
      | .error e => .error e
      | .ok rest2 => .ok (c :: rest2)

end

mutual

/-- `Node::updateNodeValues`: a leaf takes its (first) particle's current
mass and position; an internal node recursively updates its children and
recomputes its aggregate mass — but not its center of mass: the source's
line `centerOfMass() = computeCenterOfMass(children_);` assigns to the
temporary returned by the by-value accessor `centerOfMass()`, so the
member `centerOfMass_` is left unchanged. -/
def Node.updateNodeValues : ℕ → (ℕ → Vec3) → (ℕ → ℚ) → Node → Except String Node
  | f, π, μ, n =>
    if n.isExteriorNode then
      match n.particles with
      | [] => .error "UB_EMPTY_PARTICLES"
      | p :: _ => .ok (.mk (π p) (μ p) n.domain n.particles n.children)
    else
      match f with
      | 0 => .error "OUT_OF_FUEL"
      | Nat.succ f2 =>
        match Node.updateChildren f2 π μ n.children with
        | .error e => .error e
        | .ok ch2 =>
          .ok (.mk n.centerOfMass (Node.computeMass ch2) n.domain n.particles ch2)

/-- The child loop of `updateNodeValues`. -/
def Node.updateChildren : ℕ → (ℕ → Vec3) → (ℕ → ℚ) → List Node →
    Except String (List Node)
  | _, _, _, [] => .ok []
  | 0, _, _, _ :: _ => .error "OUT_OF_FUEL"
  | Nat.succ f, π, μ, c :: rest =>
    match Node.updateNodeValues f π μ c with
    | .error e => .error e
    | .ok c2 =>
      match Node.updateChildren f π μ rest with
      | .error e => .error e
      | .ok rest2 => .ok (c2 :: rest2)

end

mutual

/-- Structural equality of nodes, standing in for the source's pointer
comparison `history.top().get() != this` (which always compares a node
against itself in the reachable call pattern). -/
def nodeBEq : Node → Node → Bool
  | .mk c1 m1 d1 p1 ch1, .mk c2 m2 d2 p2 ch2 =>
    decide (c1 = c2) && decide (m1 = m2) && decide (d1 = d2) &&
      decide (p1 = p2) && nodeListBEq ch1 ch2

def nodeListBEq : List Node → List Node → Bool
  | [], [] => true
  | _ :: _, [] => false
  | [], _ :: _ => false
  | a :: as, b :: bs => nodeBEq a b && nodeListBEq as bs

end

/-- The `while (!history.empty())` walk of `rebalanceNode` after the moved
particle has been removed from its leaf: pop, then read the new top — a
read that is undefined behaviour when the pop emptied the stack, modelled
as the distinguished `EMPTY_STACK_TOP` error — and call `addParticle` on
the top node when its domain holds the particle's position. The stack is
a list with its top at the head. -/
def walkUp (f : ℕ) (π : ℕ → Vec3) (μ : ℕ → ℚ) (p : ℕ) :
    List Node → Except String Unit
  | [] => .ok ()
  | _ :: rest =>
    match rest with
    | [] => .error "EMPTY_STACK_TOP"
    | a :: _ =>
      if a.domain.isInDomain (π p) then
        match Node.addParticle f π μ a p with
        | .error e => .error e
        | .ok _ => walkUp f π μ p rest
      else walkUp f π μ p rest

mutual

/-- `Node::rebalanceNode(history)`: check the top of the history stack is
this node, then: a leaf whose particle has left its domain removes the
particle from itself and runs the ancestor walk; an internal node pushes
each child in turn onto a copy of the history and recurses. -/
def Node.rebalanceNode : ℕ → (ℕ → Vec3) → (ℕ → ℚ) → List Node → Node →
    Except String Unit
  | f, π, μ, history, n =>
    match history with
    | [] => .error "EMPTY_STACK_TOP"
    | t :: _ =>
      if (nodeBEq t n) = false then
        .error "Top value of the history stack should be *this"
      else if n.isExteriorNode then
        match n.particles with
        | [] => .error "UB_EMPTY_PARTICLES"
        | p :: _ =>
          if n.domain.isInDomain (π p) then .ok ()
          else
            match Node.removeParticle f n p with
            | .error e => .error e
            | .ok _ => walkUp f π μ p history
      else
        match f with
        | 0 => .error "OUT_OF_FUEL"
        | Nat.succ f2 => Node.rebalanceChildren f2 π μ history n.children

/-- The child loop of `rebalanceNode`. -/
def Node.rebalanceChildren : ℕ → (ℕ → Vec3) → (ℕ → ℚ) → List Node → List Node →
    Except String Unit
  | _, _, _, _, [] => .ok ()
  | 0, _, _, _, _ :: _ => .error "OUT_OF_FUEL"
  | Nat.succ f, π, μ, history, c :: rest =>
    match Node.rebalanceNode f π μ (c :: history) c with
    | .error e => .error e
    | .ok _ => Node.rebalanceChildren f π μ history rest

end

/-- `Octree`: owns the root node. -/
structure Octree where
  root : Node

/-- `Octree::Octree(const ParticleList&, Domain)`: the root is built in the
member initializer (so an empty list already fails inside
`buildChildren`), then the constructor body's own emptiness check runs. -/
def Octree.build (f : ℕ) (π : ℕ → Vec3) (μ : ℕ → ℚ) (particles : List ℕ)
    (domain : Domain) : Except String Octree :=
  match Node.build f π μ particles domain with
  | .error e => .error e
  | .ok n =>
    if particles.isEmpty then .error "Must be at least one particle in Octree"
    else .ok ⟨n⟩

/-- `Octree::rebalanceTree`: seed the history stack with the root and
rebalance recursively. -/
def Octree.rebalanceTree (f : ℕ) (π : ℕ → Vec3) (μ : ℕ → ℚ) (t : Octree) :
    Except String Unit :=
  Node.rebalanceNode f π μ [t.root] t.root

mutual

/-- Aggregate-mass invariant: a node's stored mass is the mass sum of its
particle list, and for an internal node it moreover equals
`computeMass` of its children; recursively for all children. -/
def massInvB (μ : ℕ → ℚ) : Node → Bool
  | .mk _ m _ parts ch =>
    decide (m = psum μ parts) &&
      (ch.isEmpty || decide (Node.computeMass ch = m)) &&
      massInvListB μ ch

def massInvListB (μ : ℕ → ℚ) : List Node → Bool
  | [] => true
  | c :: rest => massInvB μ c && massInvListB μ rest

end

mutual

/-- Leaf-shape invariant: a node either has no children and exactly one
particle, or has children and at least two particles; recursively for
all children. In particular it implies the spec's "leaf iff no children
iff exactly one particle". -/
def leafInvB : Node → Bool
  | .mk _ _ _ parts ch =>
    (match ch with
     | [] => decide (parts.length = 1)
     | _ :: _ => decide (2 ≤ parts.length)) &&
      leafInvListB ch

def leafInvListB : List Node → Bool
  | [] => true
  | c :: rest => leafInvB c && leafInvListB rest

end

/-- Sum of a list of vectors. -/
def vsum : List Vec3 → Vec3
  | [] => ⟨0, 0, 0⟩
  | v :: rest => v + vsum rest

/-- The mass-weighted average position of a list of particles — the value
the spec calls the center of mass of the particles. -/
def massWeightedAverage (π : ℕ → Vec3) (μ : ℕ → ℚ) (ps : List ℕ) : Vec3 :=
  (qDiv 1 (psum μ ps)) * vsum (ps.map (fun p => μ p * π p))

/-- Extract the payload of a successful computation, with a fallback. -/
def getOk {α : Type} (e : Except String α) (dflt : α) : α :=
  match e with
  | .ok a => a
  | .error _ => dflt

/-- Example position map: particle 0 at (-50,-50,-50), all others at
(50,50,50). -/
def exPos0 : ℕ → Vec3 :=
  fun n => if n = 0 then ⟨-50, -50, -50⟩ else ⟨50, 50, 50⟩

/-- Positions after a simulation step that moved particle 0 to (60,60,60):
outside its leaf's octant but still inside the root domain. -/
def exPos1 : ℕ → Vec3 :=
  fun n => if n = 0 then ⟨60, 60, 60⟩ else ⟨50, 50, 50⟩

/-- Positions after a step that moved particle 0 to (200,0,0): outside the
root domain altogether. -/
def exPos2 : ℕ → Vec3 :=
  fun n => if n = 0 then ⟨200, 0, 0⟩ else ⟨50, 50, 50⟩

/-- Example mass map: every particle has mass 1. -/
def exMass : ℕ → ℚ :=
  fun _ => 1

/-- Example bounding box [(-100,-100,-100), (100,100,100)]. -/
def exDom : Domain :=
  Domain.make ⟨-100, -100, -100⟩ ⟨100, 100, 100⟩

/-- The two-particle example tree over `exPos0`. -/
def exRoot : Node :=
  getOk (Node.build 100 exPos0 exMass [0, 1] exDom) default

/-- The single-particle example tree (the root itself is a leaf). -/
def exLeafRoot : Node :=
  getOk (Node.build 100 exPos0 exMass [0] exDom) default

/-- `exRoot` after removing particle 0. -/
def exRemoved : Node :=
  getOk (Node.removeParticle 100 exRoot 0) default

/-- `exRemoved` after `updateNodeValues` over the current maps. -/
def exUpdated : Node :=
  getOk (Node.updateNodeValues 100 exPos0 exMass exRemoved) default

/-- The octant-7 child of `exRoot`: the leaf holding particle 0. -/
def exChild7 : Node :=
  match exRoot.children with
  | _ :: c :: _ => c
  | _ => default

/-- Example domain [(0,0,0), (2,2,2)] for the octant round-trip. -/
def exD : Domain :=
  Domain.make ⟨0, 0, 0⟩ ⟨2, 2, 2⟩

/-- Example position (3/2, 1/2, 1/2) in octant 6 of `exD`, away from every
midpoint coordinate. -/
def exP : Vec3 :=
  ⟨Rat.divInt 3 2, Rat.divInt 1 2, Rat.divInt 1 2⟩

/-- The sub-domain `exD.getOctantDomain 6` actually returned by the code. -/
def exD6 : Domain :=
  getOk (exD.getOctantDomain 6) exD

/-- Position map adding a third particle at (10,10,10). -/
def exPos3 : ℕ → Vec3 :=
  fun n => if n = 0 then ⟨-50, -50, -50⟩
           else if n = 1 then ⟨50, 50, 50⟩
           else ⟨10, 10, 10⟩

/-- `exRoot` after successfully inserting particle 2 under `exPos3`. -/
def exAdded : Node :=
  getOk (Node.addParticle 100 exPos3 exMass exRoot 2) default

theorem qAdd_eq (a b : ℚ) : qAdd a b = a + b := by
  rw [qAdd]
  conv_rhs => rw [← Rat.num_divInt_den a, ← Rat.num_divInt_den b]
  rw [Rat.divInt_add_divInt _ _ (by exact_mod_cast a.den_nz) (by exact_mod_cast b.den_nz)]

theorem qMul_eq (a b : ℚ) : qMul a b = a * b := by
  rw [qMul]
  conv_rhs => rw [← Rat.num_divInt_den a, ← Rat.num_divInt_den b]
  rw [Rat.divInt_mul_divInt']

theorem qSub_eq (a b : ℚ) : qSub a b = a - b := by
  have h : qSub a b = qAdd a (-b) := by
    rw [qSub, qAdd, Rat.neg_num, Rat.neg_den]
    congr 1
    ring
  rw [h, qAdd_eq, sub_eq_add_neg]

theorem qDiv_eq (a b : ℚ) : qDiv a b = a / b := by
  by_cases hb : b.num = 0
  · have hb0 : b = 0 := Rat.zero_of_num_zero hb
    rw [qDiv, hb, hb0]
    simp [Rat.divInt_zero]
  · rw [qDiv, div_eq_mul_inv]
    conv_rhs => rw [← Rat.num_divInt_den a, Rat.inv_def', Rat.divInt_mul_divInt']

theorem octIdx_mem (d : Domain) (v : Vec3) :
    d.getOctantIndex v = 0 ∨ d.getOctantIndex v = 1 ∨ d.getOctantIndex v = 2 ∨
    d.getOctantIndex v = 3 ∨ d.getOctantIndex v = 4 ∨ d.getOctantIndex v = 5 ∨
    d.getOctantIndex v = 6 ∨ d.getOctantIndex v = 7 := by
  unfold Domain.getOctantIndex
  split <;> split <;> split <;> simp

theorem getOctantDomain_isOk (d : Domain) (i : ℤ) (h0 : 0 ≤ i) (h8 : i < 8) :
    ∃ d2, d.getOctantDomain i = .ok d2 := by
  unfold Domain.getOctantDomain
  rw [if_neg (by omega)]
  exact ⟨_, rfl⟩

theorem psum_eq (μ : ℕ → ℚ) : ∀ l : List ℕ, psum μ l = (l.map μ).sum
  | [] => by simp [psum]
  | p :: rest => by
    rw [psum, qAdd_eq, psum_eq μ rest, List.map_cons, List.sum_cons]

theorem psum_append (μ : ℕ → ℚ) (l : List ℕ) (p : ℕ) :
    psum μ (l ++ [p]) = psum μ l + μ p := by
  simp [psum_eq]

theorem computeMass_go (s : ℚ) :
    ∀ l : List Node, l.foldl (fun a n => qAdd a n.mass) s = s + (l.map Node.mass).sum
  | [] => by simp
  | n :: rest => by
    rw [List.foldl_cons, qAdd_eq, computeMass_go (s + n.mass) rest]
    simp
    ring

theorem computeMass_eq (l : List Node) :
    Node.computeMass l = (l.map Node.mass).sum := by
  rw [Node.computeMass, computeMass_go]
  simp

theorem bucket_cons (π : ℕ → Vec3) (d : Domain) (p : ℕ) (ps : List ℕ) (i : ℤ) :
    bucket π d (p :: ps) i =
      if Domain.getOctantIndex d (π p) = i then p :: bucket π d ps i
      else bucket π d ps i := by
  simp only [bucket, List.filter_cons]
  split <;> split <;> simp_all

theorem bucket_psum_sum (π : ℕ → Vec3) (μ : ℕ → ℚ) (d : Domain) :
    ∀ ps : List ℕ,
      ((octIdxList.map fun i => psum μ (bucket π d ps i)).sum) = psum μ ps := by
  intro ps
  induction ps with
  | nil => simp [octIdxList, bucket, psum]
  | cons p rest ih =>
    have h8 := octIdx_mem d (π p)
    simp only [octIdxList, List.map_cons, List.map_nil, List.sum_cons,
      List.sum_nil] at ih ⊢
    rw [psum, qAdd_eq, ← ih]
    rcases h8 with h|h|h|h|h|h|h|h <;>
      norm_num [bucket_cons, h, psum, qAdd_eq] <;> ring

theorem massInvListB_iff (μ : ℕ → ℚ) :
    ∀ l : List Node, massInvListB μ l = true ↔ ∀ c ∈ l, massInvB μ c = true
  | [] => by simp [massInvListB]
  | c :: rest => by
    simp [massInvListB, Bool.and_eq_true, massInvListB_iff μ rest]

theorem leafInvListB_iff :
    ∀ l : List Node, leafInvListB l = true ↔ ∀ c ∈ l, leafInvB c = true
  | [] => by simp [leafInvListB]
  | c :: rest => by
    simp [leafInvListB, Bool.and_eq_true, leafInvListB_iff rest]

theorem massInvB_mass {μ : ℕ → ℚ} {n : Node} (h : massInvB μ n = true) :
    n.mass = psum μ n.particles := by
  cases n with
  | mk c m d parts ch =>
    simp only [massInvB, Bool.and_eq_true, decide_eq_true_eq] at h
    exact h.1.1

theorem massInvB_children {μ : ℕ → ℚ} {n : Node} (h : massInvB μ n = true)
    (hch : n.children ≠ []) : Node.computeMass n.children = n.mass := by
  cases n with
  | mk c m d parts ch =>
    simp only [massInvB, Bool.and_eq_true, Bool.or_eq_true, decide_eq_true_eq,
      List.isEmpty_iff] at h
    simp only [Node.children] at hch ⊢
    rcases h.1.2 with h2 | h2
    · exact absurd h2 hch
    · simpa [Node.mass] using h2

mutual

theorem Node.build_inv (μ : ℕ → ℚ) :
    ∀ (f : ℕ) (π : ℕ → Vec3) (parts : List ℕ) (d : Domain) (n : Node),
      Node.build f π μ parts d = .ok n →
        massInvB μ n = true ∧ leafInvB n = true ∧ n.particles = parts
  | 0, π, parts, d, n => by
    intro h
    simp [Node.build] at h
  | Nat.succ f, π, parts, d, n => by
    intro h
    simp only [Node.build] at h
    split at h
    next e heq => exact absurd h (by simp)
    next children heq =>
      have hc := Node.buildChildren_inv μ f π parts d children heq
      by_cases hne : parts.isEmpty
      · rw [if_pos hne] at h; exact absurd h (by simp)
      · rw [if_neg hne] at h
        have hpartsne : parts ≠ [] := by simpa [List.isEmpty_iff] using hne
        by_cases hche : children.isEmpty
        · rw [if_pos hche] at h
          have hchnil : children = [] := by simpa [List.isEmpty_iff] using hche
          have hlen1 : parts.length = 1 := by
            rcases Nat.lt_or_ge parts.length 2 with h2 | h2
            · have h1 : 1 ≤ parts.length := by
                cases parts with
                | nil => exact absurd rfl hpartsne
                | cons a t => simp
              omega
            · exact absurd hchnil (hc.2.2.2 h2).2
          cases parts with
          | nil => exact absurd rfl hpartsne
          | cons p t =>
            have ht : t = [] := by simpa using hlen1
            subst ht
            simp only [Except.ok.injEq] at h
            subst h
            refine ⟨?_, ?_, rfl⟩
            · simp [massInvB, massInvListB, psum, qAdd_eq]
            · simp [leafInvB, leafInvListB]
        · rw [if_neg hche] at h
          have hchnil : children ≠ [] := by
            simpa [List.isEmpty_iff] using hche
          have hlen2 : 2 ≤ parts.length := by
            rcases Nat.lt_or_ge parts.length 2 with h2 | h2
            · have h0 : parts.length ≠ 0 :=
                fun hz => hpartsne (List.length_eq_zero.mp hz)
              have h1 : parts.length = 1 := by omega
              exact absurd (hc.2.2.1 h1) hchnil
            · exact h2
          simp only [Except.ok.injEq] at h
          subst h
          refine ⟨?_, ?_, rfl⟩
          · cases children with
            | nil => exact absurd rfl hchnil
            | cons c cs =>
              simp only [massInvB, Bool.and_eq_true, decide_eq_true_eq]
              refine ⟨⟨?_, ?_⟩, ?_⟩
              · rw [computeMass_eq]
                exact (hc.2.2.2 hlen2).1
              · simp
              · exact hc.1
          · cases children with
            | nil => exact absurd rfl hchnil
            | cons c cs =>
              simp only [leafInvB, Bool.and_eq_true, decide_eq_true_eq]
              exact ⟨hlen2, hc.2.1⟩

theorem Node.buildChildren_inv (μ : ℕ → ℚ) :
    ∀ (f : ℕ) (π : ℕ → Vec3) (parts : List ℕ) (d : Domain) (ch : List Node),
      Node.buildChildren f π μ parts d = .ok ch →
        massInvListB μ ch = true ∧ leafInvListB ch = true ∧
        (parts.length = 1 → ch = []) ∧
        (2 ≤ parts.length →
          (ch.map Node.mass).sum = psum μ parts ∧ ch ≠ [])
  | 0, π, parts, d, ch => by
    intro h
    simp only [Node.buildChildren] at h
    by_cases hne : parts.isEmpty
    · rw [if_pos hne] at h; exact absurd h (by simp)
    · rw [if_neg hne] at h
      by_cases hlen : parts.length = 1
      · rw [if_pos hlen] at h
        simp only [Except.ok.injEq] at h
        subst h
        refine ⟨by simp [massInvListB], by simp [leafInvListB], fun _ => rfl, ?_⟩
        intro h2
        omega
      · rw [if_neg hlen] at h
        exact absurd h (by simp)
  | Nat.succ f2, π, parts, d, ch => by
    intro h
    simp only [Node.buildChildren] at h
    by_cases hne : parts.isEmpty
    · rw [if_pos hne] at h; exact absurd h (by simp)
    · rw [if_neg hne] at h
      have hpartsne : parts ≠ [] := by simpa [List.isEmpty_iff] using hne
      by_cases hlen : parts.length = 1
      · rw [if_pos hlen] at h
        simp only [Except.ok.injEq] at h
        subst h
        refine ⟨by simp [massInvListB], by simp [leafInvListB], fun _ => rfl, ?_⟩
        intro h2
        omega
      · rw [if_neg hlen] at h
        · have ho := Node.buildOctants_inv μ f2 octIdxList π parts d ch h
          refine ⟨ho.1, ho.2.1, fun h1 => absurd h1 hlen, fun _ => ⟨?_, ?_⟩⟩
          · rw [ho.2.2.1, bucket_psum_sum]
          · apply ho.2.2.2
            cases parts with
            | nil => exact absurd rfl hpartsne
            | cons p t =>
              refine ⟨Domain.getOctantIndex d (π p), ?_, ?_⟩
              · rcases octIdx_mem d (π p) with h|h|h|h|h|h|h|h <;>
                  simp [octIdxList, h]
              · apply List.ne_nil_of_mem (a := p)
                simp [bucket, List.mem_filter]

theorem Node.buildOctants_inv (μ : ℕ → ℚ) :
    ∀ (f : ℕ) (idxs : List ℤ) (π : ℕ → Vec3) (parts : List ℕ) (d : Domain)
      (ch : List Node),
      Node.buildOctants f π μ parts d idxs = .ok ch →
        massInvListB μ ch = true ∧ leafInvListB ch = true ∧
        (ch.map Node.mass).sum =
          ((idxs.map fun i => psum μ (bucket π d parts i)).sum) ∧
        ((∃ i ∈ idxs, bucket π d parts i ≠ []) → ch ≠ [])
  | f, [], π, parts, d, ch => by
    intro h
    simp only [Node.buildOctants, Except.ok.injEq] at h
    subst h
    simp [massInvListB, leafInvListB]
  | 0, i :: rest, π, parts, d, ch => by
    intro h
    simp [Node.buildOctants] at h
  | Nat.succ f, i :: rest, π, parts, d, ch => by
    intro h
    simp only [Node.buildOctants] at h
    by_cases hbe : (bucket π d parts i).isEmpty
    · rw [if_pos hbe] at h
      have hbnil : bucket π d parts i = [] := by
        simpa [List.isEmpty_iff] using hbe
      have ho := Node.buildOctants_inv μ f rest π parts d ch h
      refine ⟨ho.1, ho.2.1, ?_, ?_⟩
      · rw [ho.2.2.1]
        simp [hbnil, psum]
      · intro hex
        apply ho.2.2.2
        rcases hex with ⟨j, hj, hbj⟩
        rcases List.mem_cons.mp hj with rfl | hj2
        · exact absurd hbnil hbj
        · exact ⟨j, hj2, hbj⟩
    · rw [if_neg hbe] at h
      split at h
      next e hod => exact absurd h (by simp)
      next d2 hod =>
        split at h
        next e hb => exact absurd h (by simp)
        next child hb =>
          split at h
          next e hrest => exact absurd h (by simp)
          next others hrest =>
            simp only [Except.ok.injEq] at h
            subst h
            have hci := Node.build_inv μ f π (bucket π d parts i) d2 child hb
            have ho := Node.buildOctants_inv μ f rest π parts d others hrest
            refine ⟨?_, ?_, ?_, fun _ => by simp⟩
            · simp only [massInvListB, Bool.and_eq_true]
              exact ⟨hci.1, ho.1⟩
            · simp only [leafInvListB, Bool.and_eq_true]
              exact ⟨hci.2.1, ho.2.1⟩
            · simp only [List.map_cons, List.sum_cons]
              rw [ho.2.2.1, massInvB_mass hci.1, hci.2.2]

end

theorem massInvB_childList {μ : ℕ → ℚ} {n : Node} (h : massInvB μ n = true) :
    massInvListB μ n.children = true := by
  cases n with
  | mk c m d parts ch =>
    simp only [massInvB, Bool.and_eq_true] at h
    exact h.2

theorem leafInvB_childList {n : Node} (h : leafInvB n = true) :
    leafInvListB n.children = true := by
  cases n with
  | mk c m d parts ch =>
    simp only [leafInvB, Bool.and_eq_true] at h
    exact h.2

theorem leafInvB_leaf {n : Node} (h : leafInvB n = true)
    (hch : n.children = []) : n.particles.length = 1 := by
  cases n with
  | mk c m d parts ch =>
    simp only [Node.children] at hch
    subst hch
    simp only [Node.particles]
    simpa [leafInvB, leafInvListB] using h

theorem leafInvB_internal {n : Node} (h : leafInvB n = true)
    (hch : n.children ≠ []) : 2 ≤ n.particles.length := by
  cases n with
  | mk c m d parts ch =>
    simp only [Node.children] at hch
    cases ch with
    | nil => exact absurd rfl hch
    | cons a t =>
      simp only [leafInvB, Bool.and_eq_true, decide_eq_true_eq] at h
      exact h.1

theorem massInvListB_append (μ : ℕ → ℚ) (l1 l2 : List Node) :
    massInvListB μ (l1 ++ l2) = (massInvListB μ l1 && massInvListB μ l2) := by
  induction l1 with
  | nil => simp [massInvListB]
  | cons c rest ih => simp [massInvListB, ih, Bool.and_assoc]

theorem leafInvListB_append (l1 l2 : List Node) :
    leafInvListB (l1 ++ l2) = (leafInvListB l1 && leafInvListB l2) := by
  induction l1 with
  | nil => simp [leafInvListB]
  | cons c rest ih => simp [leafInvListB, ih, Bool.and_assoc]

theorem massInvB_mk {μ : ℕ → ℚ} {c : Vec3} {m : ℚ} {d : Domain}
    {parts : List ℕ} {ch : List Node} (h1 : m = psum μ parts)
    (h2 : ch = [] ∨ Node.computeMass ch = m) (h3 : massInvListB μ ch = true) :
    massInvB μ (Node.mk c m d parts ch) = true := by
  simp only [massInvB, Bool.and_eq_true, Bool.or_eq_true, decide_eq_true_eq,
    List.isEmpty_iff]
  exact ⟨⟨h1, h2⟩, h3⟩

theorem leafInvB_mk_internal {c : Vec3} {m : ℚ} {d : Domain} {parts : List ℕ}
    {ch : List Node} (hch : ch ≠ []) (hlen : 2 ≤ parts.length)
    (hl : leafInvListB ch = true) :
    leafInvB (Node.mk c m d parts ch) = true := by
  cases ch with
  | nil => exact absurd rfl hch
  | cons a t =>
    simp only [leafInvB, Bool.and_eq_true, decide_eq_true_eq]
    exact ⟨hlen, hl⟩

mutual

theorem Node.addParticle_inv (μ : ℕ → ℚ) :
    ∀ (f : ℕ) (π : ℕ → Vec3) (n : Node) (p : ℕ) (n2 : Node),
      massInvB μ n = true → leafInvB n = true →
      Node.addParticle f π μ n p = .ok n2 →
        massInvB μ n2 = true ∧ leafInvB n2 = true ∧
        n2.particles = n.particles ++ [p]
  | 0, π, n, p, n2 => by
    intro hm hl h
    simp only [Node.addParticle] at h
    by_cases h1 : n.domain.isInDomain (π p) = false
    · rw [if_pos h1] at h; exact absurd h (by simp)
    · rw [if_neg h1] at h
      by_cases h2 : n.contains p
      · rw [if_pos h2] at h; exact absurd h (by simp)
      · rw [if_neg h2] at h; exact absurd h (by simp)
  | Nat.succ f, π, n, p, n2 => by
    intro hm hl h
    simp only [Node.addParticle] at h
    by_cases h1 : n.domain.isInDomain (π p) = false
    · rw [if_pos h1] at h; exact absurd h (by simp)
    · rw [if_neg h1] at h
      by_cases h2 : n.contains p
      · rw [if_pos h2] at h; exact absurd h (by simp)
      · rw [if_neg h2] at h
        by_cases hche : n.children.isEmpty
        · rw [if_pos hche] at h
          have hchnil : n.children = [] := by
            simpa [List.isEmpty_iff] using hche
          have hlen1 : n.particles.length = 1 := leafInvB_leaf hl hchnil
          split at h
          next e heq => exact absurd h (by simp)
          next ch heq =>
            simp only [Except.ok.injEq] at h
            subst h
            have hlen2 : 2 ≤ (n.particles ++ [p]).length := by
              simp [hlen1]
            have hc := Node.buildChildren_inv μ f π (n.particles ++ [p])
              n.domain ch heq
            refine ⟨?_, ?_, rfl⟩
            · cases hcne : ch with
              | nil => exact absurd hcne (hc.2.2.2 hlen2).2
              | cons a t =>
                subst hcne
                simp only [massInvB, Bool.and_eq_true, decide_eq_true_eq]
                refine ⟨⟨?_, ?_⟩, hc.1⟩
                · rw [computeMass_eq]
                  exact (hc.2.2.2 hlen2).1
                · simp
            · cases hcne : ch with
              | nil => exact absurd hcne (hc.2.2.2 hlen2).2
              | cons a t =>
                subst hcne
                simp only [leafInvB, Bool.and_eq_true, decide_eq_true_eq]
                exact ⟨hlen2, hc.2.1⟩
        · rw [if_neg hche] at h
          have hchne : n.children ≠ [] := by
            simpa [List.isEmpty_iff] using hche
          have hlen2 : 2 ≤ n.particles.length := leafInvB_internal hl hchne
          split at h
          next e heq => exact absurd h (by simp)
          next ch2 heq =>
            have hadd := Node.addToChildren_inv μ f π p n.children ch2
              (massInvB_childList hm) (leafInvB_childList hl) heq
            simp only [Except.ok.injEq] at h
            subst h
            refine ⟨?_, ?_, rfl⟩
            · cases hcne : ch2 with
              | nil => exact absurd hcne hadd.2.2.2
              | cons a t =>
                subst hcne
                simp only [massInvB, Bool.and_eq_true, decide_eq_true_eq]
                refine ⟨⟨?_, ?_⟩, hadd.1⟩
                · rw [computeMass_eq, hadd.2.2.1, ← computeMass_eq,
                    massInvB_children hm hchne, massInvB_mass hm, psum_append]
                · simp
            · cases hcne : ch2 with
              | nil => exact absurd hcne hadd.2.2.2
              | cons a t =>
                subst hcne
                simp only [leafInvB, Bool.and_eq_true, decide_eq_true_eq]
                refine ⟨by simpa using Nat.le_succ_of_le hlen2, hadd.2.1⟩
          next heq =>
            split at h
            next e hod => exact absurd h (by simp)
            next nd hod =>
              simp only [Except.ok.injEq] at h
              subst h
              refine ⟨?_, ?_, rfl⟩
              · apply massInvB_mk
                · rw [computeMass_eq]
                  simp only [List.map_append, List.sum_append, List.map_cons,
                    List.map_nil, List.sum_cons, List.sum_nil]
                  rw [← computeMass_eq, massInvB_children hm hchne,
                    massInvB_mass hm, psum_append]
                  simp [Node.mass]
                · right
                  rfl
                · rw [massInvListB_append]
                  simp only [Bool.and_eq_true]
                  refine ⟨massInvB_childList hm, ?_⟩
                  simp [massInvListB, massInvB, psum, qAdd_eq]
              · apply leafInvB_mk_internal
                · simp
                · simp only [List.length_append, List.length_cons,
                    List.length_nil]
                  omega
                · rw [leafInvListB_append]
                  simp only [Bool.and_eq_true]
                  exact ⟨leafInvB_childList hl, by simp [leafInvListB, leafInvB]⟩

theorem Node.addToChildren_inv (μ : ℕ → ℚ) :
    ∀ (f : ℕ) (π : ℕ → Vec3) (p : ℕ) (l : List Node) (l2 : List Node),
      massInvListB μ l = true → leafInvListB l = true →
      Node.addToChildren f π μ p l = .ok (some l2) →
        massInvListB μ l2 = true ∧ leafInvListB l2 = true ∧
        (l2.map Node.mass).sum = (l.map Node.mass).sum + μ p ∧ l2 ≠ []
  | f, π, p, [], l2 => by
    intro hm hl h
    cases f <;> simp [Node.addToChildren] at h
  | 0, π, p, c :: rest, l2 => by
    intro hm hl h
    simp [Node.addToChildren] at h
  | Nat.succ f, π, p, c :: rest, l2 => by
    intro hm hl h
    simp only [Node.addToChildren] at h
    simp only [massInvListB, Bool.and_eq_true] at hm
    simp only [leafInvListB, Bool.and_eq_true] at hl
    by_cases hd : c.domain.isInDomain (π p)
    · rw [if_pos hd] at h
      split at h
      next e heq => exact absurd h (by simp)
      next c2 heq =>
        simp only [Except.ok.injEq, Option.some.injEq] at h
        subst h
        have hc2 := Node.addParticle_inv μ f π c p c2 hm.1 hl.1 heq
        refine ⟨?_, ?_, ?_, by simp⟩
        · simp only [massInvListB, Bool.and_eq_true]
          exact ⟨hc2.1, hm.2⟩
        · simp only [leafInvListB, Bool.and_eq_true]
          exact ⟨hc2.2.1, hl.2⟩
        · simp only [List.map_cons, List.sum_cons]
          rw [massInvB_mass hc2.1, hc2.2.2, psum_append, ← massInvB_mass hm.1]
          ring
    · rw [if_neg hd] at h
      split at h
      next e heq => exact absurd h (by simp)
      next heq => exact absurd h (by simp)
      next rest2 heq =>
        · simp only [Except.ok.injEq, Option.some.injEq] at h
          subst h
          have hr := Node.addToChildren_inv μ f π p rest rest2 hm.2 hl.2 heq
          refine ⟨?_, ?_, ?_, by simp⟩
          · simp only [massInvListB, Bool.and_eq_true]
            exact ⟨hm.1, hr.1⟩
          · simp only [leafInvListB, Bool.and_eq_true]
            exact ⟨hl.1, hr.2.1⟩
          · simp only [List.map_cons, List.sum_cons]
            rw [hr.2.2.1]
            ring

end

theorem Node.removeParticle_keeps (f : ℕ) (n : Node) (p : ℕ) (n2 : Node)
    (h : Node.removeParticle f n p = .ok n2) :
    n2.mass = n.mass ∧ n2.centerOfMass = n.centerOfMass := by
  cases f with
  | zero =>
    simp only [Node.removeParticle] at h
    by_cases hc : n.contains p = false
    · rw [if_pos hc] at h; exact absurd h (by simp)
    · rw [if_neg hc] at h; exact absurd h (by simp)
  | succ f2 =>
    simp only [Node.removeParticle] at h
    by_cases hc : n.contains p = false
    · rw [if_pos hc] at h; exact absurd h (by simp)
    · rw [if_neg hc] at h
      split at h
      next e heq => exact absurd h (by simp)
      next ch2 heq =>
        simp only [Except.ok.injEq] at h
        subst h
        exact ⟨rfl, rfl⟩

theorem Node.addParticle_held (f : ℕ) (π : ℕ → Vec3) (μ : ℕ → ℚ) (n : Node)
    (p : ℕ) (hc : n.contains p = true) :
    Node.addParticle f π μ n p =
      .error (if n.domain.isInDomain (π p)
              then "Particle is already held by the Node"
              else "Particle is not in the Node's Domain") := by
  cases f with
  | zero =>
    by_cases hd : n.domain.isInDomain (π p) <;>
      simp [Node.addParticle, hd, hc]
  | succ f2 =>
    by_cases hd : n.domain.isInDomain (π p) <;>
      simp [Node.addParticle, hd, hc]

theorem walkUp_already_held (f : ℕ) (π : ℕ → Vec3) (μ : ℕ → ℚ) (p : ℕ) :
    ∀ (x : Node) (t : List Node),
      (∀ a ∈ t, a.contains p = true) →
      (∃ a ∈ t, a.domain.isInDomain (π p) = true) →
      walkUp f π μ p (x :: t) = .error "Particle is already held by the Node"
  | x, [] => by
    intro hc hex
    simp at hex
  | x, a :: t2 => by
    intro hc hex
    simp only [walkUp]
    by_cases hd : a.domain.isInDomain (π p)
    · rw [if_pos hd]
      rw [Node.addParticle_held f π μ a p (hc a (by simp))]
      simp [hd]
    · rw [if_neg hd]
      apply walkUp_already_held f π μ p a t2 (fun b hb => hc b (by simp [hb]))
      rcases hex with ⟨b, hb, hbd⟩
      rcases List.mem_cons.mp hb with rfl | hb2
      · exact absurd hbd (by simpa using hd)
      · exact ⟨b, hb2, hbd⟩

theorem walkUp_empty_top (f : ℕ) (π : ℕ → Vec3) (μ : ℕ → ℚ) (p : ℕ) :
    ∀ (x : Node) (t : List Node),
      (∀ a ∈ t, a.domain.isInDomain (π p) = false) →
      walkUp f π μ p (x :: t) = .error "EMPTY_STACK_TOP"
  | x, [] => by
    intro hc
    simp [walkUp]
  | x, a :: t2 => by
    intro hc
    simp only [walkUp]
    rw [if_neg (by simp [hc a (by simp)])]
    exact walkUp_empty_top f π μ p a t2 (fun b hb => hc b (by simp [hb]))

mutual

theorem nodeBEq_refl : ∀ n : Node, nodeBEq n n = true
  | .mk c m d ps ch => by
    simp [nodeBEq, nodeListBEq_refl ch]

theorem nodeListBEq_refl : ∀ l : List Node, nodeListBEq l l = true
  | [] => rfl
  | a :: t => by
    simp only [nodeListBEq, Bool.and_eq_true]
    exact ⟨nodeBEq_refl a, nodeListBEq_refl t⟩

end

theorem Node.rebalanceNode_leaf_displaced (f : ℕ) (π : ℕ → Vec3) (μ : ℕ → ℚ)
    (p : ℕ) (com : Vec3) (m : ℚ) (d : Domain) (t : List Node)
    (hout : d.isInDomain (π p) = false) :
    Node.rebalanceNode (Nat.succ f) π μ (Node.mk com m d [p] [] :: t)
        (Node.mk com m d [p] []) =
      walkUp (Nat.succ f) π μ p (Node.mk com m d [p] [] :: t) := by
  simp only [Node.rebalanceNode]
  rw [if_neg (by simp [nodeBEq_refl])]
  rw [if_pos (by simp [Node.isExteriorNode, Node.children])]
  simp only [Node.particles]
  rw [if_neg (by simp [Node.domain, hout])]
  have hrp : Node.removeParticle (Nat.succ f) (Node.mk com m d [p] []) p =
      .ok (Node.mk com m d [] []) := by
    simp only [Node.removeParticle]
    rw [if_neg (by simp [Node.contains, Node.particles])]
    simp [Node.removeFromChildren, Node.children, Node.particles,
      Node.centerOfMass, Node.mass, Node.domain]
  rw [hrp]

/-- C1 counter-evidence: the position (3/2, 1/2, 1/2) lies inside the Domain
[(0,0,0),(2,2,2)], on none of its midpoint coordinates, and is classified
into octant 6 — yet the sub-domain the code returns for octant 6 does not
contain it (the source computes that octant's outer corner as
`min_ - Vec3{span.x, 0, 0}` instead of `min_ + Vec3{span.x, 0, 0}`). -/
theorem octant6_roundtrip_violation :
    exD.isInDomain exP = true ∧
    exD.getOctantIndex exP = 6 ∧
    (exP.x ≠ exD.midpoint.x ∧ exP.y ≠ exD.midpoint.y ∧ exP.z ≠ exD.midpoint.z) ∧
    exD.getOctantDomain (exD.getOctantIndex exP) = .ok exD6 ∧
    exD6.isInDomain exP = false := by
  refine ⟨rfl, rfl, ⟨?_, ?_, ?_⟩, rfl, rfl⟩ <;> decide

/-- C2: in the two-particle tree, particle 0 has been displaced outside its
leaf's Domain but is still inside the root's Domain; `rebalanceTree`
then raises the invalid-argument error "Particle is already held by the
Node" (thrown by `addParticle` on the root, which still holds the
particle) instead of completing with every leaf's particle contained in
its leaf's Domain. -/
theorem rebalance_displaced_throws :
    exChild7.domain.isInDomain (exPos1 0) = false ∧
    exDom.isInDomain (exPos1 0) = true ∧
    exChild7.particles = [0] ∧ exChild7.children = [] ∧
    Octree.rebalanceTree 100 exPos1 exMass ⟨exRoot⟩ =
      .error "Particle is already held by the Node" :=
  ⟨rfl, rfl, rfl, rfl, rfl⟩

/-- C3 counterexample: after a successful `removeParticle` the root's stored
aggregate mass is still 2, while the masses of the particles it now
holds sum to 1 — removal does not re-aggregate, so the equality the
claim asserts fails. -/
theorem remove_breaks_mass_equality :
    Node.removeParticle 100 exRoot 0 = .ok exRemoved ∧
    exRemoved.particles = [1] ∧
    exRemoved.mass = 2 ∧ psum exMass exRemoved.particles = 1 ∧
    exRemoved.mass ≠ psum exMass exRemoved.particles := by
  refine ⟨rfl, rfl, rfl, rfl, by decide⟩

/-- C3 amended: for every successful construction the root's aggregate mass
equals the sum of the input particles' masses (exactly, over `ℚ`), and
every successful `addParticle` on a node satisfying the aggregate and
leaf invariants preserves the equality; a successful `removeParticle`,
however, leaves the stored aggregate mass unchanged (it performs no
re-aggregation), so after removal the equality holds with the removed
particle still counted. -/
theorem mass_aggregate_amended :
    (∀ (f : ℕ) (π : ℕ → Vec3) (μ : ℕ → ℚ) (parts : List ℕ) (d : Domain)
      (n : Node), Node.build f π μ parts d = .ok n → n.mass = psum μ parts) ∧
    (∀ (f : ℕ) (π : ℕ → Vec3) (μ : ℕ → ℚ) (n : Node) (p : ℕ) (n2 : Node),
      massInvB μ n = true → leafInvB n = true →
      Node.addParticle f π μ n p = .ok n2 →
        n2.mass = psum μ n2.particles ∧ n2.particles = n.particles ++ [p]) ∧
    (∀ (f : ℕ) (n : Node) (p : ℕ) (n2 : Node),
      Node.removeParticle f n p = .ok n2 → n2.mass = n.mass) := by
  refine ⟨?_, ?_, ?_⟩
  · intro f π μ parts d n h
    have hi := Node.build_inv μ f π parts d n h
    rw [massInvB_mass hi.1, hi.2.2]
  · intro f π μ n p n2 hm hl h
    have hi := Node.addParticle_inv μ f π n p n2 hm hl h
    exact ⟨massInvB_mass hi.1, hi.2.2⟩
  · intro f n p n2 h
    exact (Node.removeParticle_keeps f n p n2 h).1

/-- Witness for the amended C3 theorem at the concrete two-particle tree. -/
theorem mass_aggregate_amended_witness :
    exRoot.mass = psum exMass [0, 1] ∧ exRemoved.mass = exRoot.mass :=
  ⟨mass_aggregate_amended.1 100 exPos0 exMass [0, 1] exDom exRoot (by rfl),
   mass_aggregate_amended.2.2 100 exRoot 0 exRemoved (by rfl)⟩

/-- C4 counterexample: for the displaced leaf of the two-particle tree, the
ancestor walk does not insert the particle into the containing ancestor
(the root): the `addParticle` call it makes fails with the
invalid-argument "already held" error — the root still holds the
particle, since `removeParticle` ran only on the leaf — and the
rebalance aborts. -/
theorem rebalance_walk_aborts_cex :
    Node.rebalanceNode 100 exPos1 exMass [exChild7, exRoot] exChild7 =
      .error "Particle is already held by the Node" ∧
    Node.addParticle 100 exPos1 exMass exRoot 0 =
      .error "Particle is already held by the Node" ∧
    exRoot.domain.isInDomain (exPos1 0) = true :=
  ⟨rfl, rfl, rfl⟩

/-- C4 amended: when the displaced leaf's walk pops the stack, every
remaining ancestor still holds the particle (only the leaf's own list
was cleared), so the first ancestor whose Domain contains the new
position receives an `addParticle` call that fails with the
invalid-argument "already held" error and the walk aborts; no ancestor
receives an insertion. -/
theorem rebalance_walk_amended :
    ∀ (f : ℕ) (π : ℕ → Vec3) (μ : ℕ → ℚ) (p : ℕ) (x : Node) (t : List Node),
      (∀ a ∈ t, a.contains p = true) →
      (∃ a ∈ t, a.domain.isInDomain (π p) = true) →
      walkUp f π μ p (x :: t) = .error "Particle is already held by the Node" :=
  fun f π μ p x t hc hex => walkUp_already_held f π μ p x t hc hex

/-- Witness for the amended C4 theorem: the concrete displaced leaf's walk. -/
theorem rebalance_walk_amended_witness :
    walkUp 100 exPos1 exMass 0 [exChild7, exRoot] =
      .error "Particle is already held by the Node" :=
  rebalance_walk_amended 100 exPos1 exMass 0 exChild7 [exRoot]
    (by
      intro a ha
      rw [List.mem_singleton] at ha
      subst ha
      rfl)
    ⟨exRoot, by simp, by rfl⟩

/-- C5 counterexample: removing one of the two particles erases the now
obsolete leaf child but leaves the root holding exactly one particle
with a non-empty child list, so "children empty iff exactly one
particle" fails on a node reached by the public operations. -/
theorem remove_breaks_leaf_invariant :
    Node.removeParticle 100 exRoot 0 = .ok exRemoved ∧
    exRemoved.particles.length = 1 ∧
    exRemoved.children.length = 1 ∧
    leafInvB exRemoved = false :=
  ⟨rfl, rfl, rfl, rfl⟩

/-- C5 amended: construction establishes, and successful `addParticle`
preserves, the shape invariant "a node has no children and exactly one
particle, or children and at least two particles" (which implies the
claimed leaf iff no-children iff one-particle equivalence); successful
`removeParticle` can break it, leaving an internal node with a single
particle. -/
theorem leaf_invariant_amended :
    (∀ (f : ℕ) (π : ℕ → Vec3) (μ : ℕ → ℚ) (parts : List ℕ) (d : Domain)
      (n : Node), Node.build f π μ parts d = .ok n → leafInvB n = true) ∧
    (∀ (f : ℕ) (π : ℕ → Vec3) (μ : ℕ → ℚ) (n : Node) (p : ℕ) (n2 : Node),
      massInvB μ n = true → leafInvB n = true →
      Node.addParticle f π μ n p = .ok n2 → leafInvB n2 = true) := by
  constructor
  · intro f π μ parts d n h
    exact (Node.build_inv μ f π parts d n h).2.1
  · intro f π μ n p n2 hm hl h
    exact (Node.addParticle_inv μ f π n p n2 hm hl h).2.1

/-- Witness for the amended C5 theorem: the built tree and a successful
insertion. -/
theorem leaf_invariant_amended_witness :
    leafInvB exRoot = true ∧ leafInvB exAdded = true :=
  ⟨leaf_invariant_amended.1 100 exPos0 exMass [0, 1] exDom exRoot (by rfl),
   leaf_invariant_amended.2 100 exPos3 exMass exRoot 2 exAdded (by rfl)
     (by rfl) (by rfl)⟩

/-- C6: after a removal made the root's aggregates stale, calling
`updateNodeValues` refreshes the mass but not the center of mass: the
source's `centerOfMass() = computeCenterOfMass(children_);` assigns to
the temporary returned by the by-value accessor, so the member keeps its
stale value (0,0,0) instead of the mass-weighted average (50,50,50) of
the one remaining particle. -/
theorem updateNodeValues_com_stale :
    Node.updateNodeValues 100 exPos0 exMass exRemoved = .ok exUpdated ∧
    exUpdated.particles = [1] ∧
    exUpdated.mass = 1 ∧
    exUpdated.centerOfMass = ⟨0, 0, 0⟩ ∧
    massWeightedAverage exPos0 exMass exUpdated.particles = ⟨50, 50, 50⟩ ∧
    exUpdated.centerOfMass ≠
      massWeightedAverage exPos0 exMass exUpdated.particles := by
  refine ⟨rfl, rfl, rfl, rfl, rfl, by decide⟩

/-- C7 counterexample: `buildChildren` on a single-particle list does not
fail; it returns the empty child list. -/
theorem buildChildren_singleton_ok :
    Node.buildChildren 5 exPos0 exMass [0] exDom = .ok [] := rfl

/-- C7 amended: `buildChildren` fails with the invalid-argument condition
only for the empty particle list; for every single-particle list it
returns an empty child list without failing (the caller then treats the
node as a leaf). -/
theorem buildChildren_arity_amended :
    ∀ (f : ℕ) (π : ℕ → Vec3) (μ : ℕ → ℚ) (d : Domain),
      Node.buildChildren f π μ [] d =
        .error "Must be at least one particle in list" ∧
      ∀ p : ℕ, Node.buildChildren f π μ [p] d = .ok [] := by
  intro f π μ d
  constructor
  · cases f <;> simp [Node.buildChildren]
  · intro p
    cases f <;> simp [Node.buildChildren]

/-- C8: calling `addParticle` with a particle the node already holds fails
with an invalid-argument error — the "already held" message when the
particle's position is inside the node's Domain, the Domain message
(checked first) otherwise — and both checks precede every mutation, so
the node is unchanged. -/
theorem addParticle_duplicate_rejected :
    ∀ (f : ℕ) (π : ℕ → Vec3) (μ : ℕ → ℚ) (n : Node) (p : ℕ),
      n.contains p = true →
      Node.addParticle f π μ n p =
        .error (if n.domain.isInDomain (π p)
                then "Particle is already held by the Node"
                else "Particle is not in the Node's Domain") :=
  fun f π μ n p hc => Node.addParticle_held f π μ n p hc

/-- Witness for C8 at the concrete tree, which holds particle 0. -/
theorem addParticle_duplicate_rejected_witness :
    Node.addParticle 100 exPos0 exMass exRoot 0 =
      .error (if exRoot.domain.isInDomain (exPos0 0)
              then "Particle is already held by the Node"
              else "Particle is not in the Node's Domain") :=
  addParticle_duplicate_rejected 100 exPos0 exMass exRoot 0 (by rfl)

/-- C9: `getOctantDomain` fails with the invalid-argument error exactly for
indices outside [0,7], and returns a Domain for every index in [0,7]. -/
theorem getOctantDomain_range :
    ∀ (d : Domain) (i : ℤ),
      ((8 ≤ i ∨ i < 0) → d.getOctantDomain i = .error "Invalid octant index") ∧
      (0 ≤ i → i < 8 → ∃ d2, d.getOctantDomain i = .ok d2) := by
  intro d i
  constructor
  · intro h
    simp only [Domain.getOctantDomain]
    rw [if_pos h]
  · intro h0 h8
    exact getOctantDomain_isOk d i h0 h8

/-- Witness for C9 at the indices -1, 8 and 3. -/
theorem getOctantDomain_range_witness :
    (exD.getOctantDomain (-1) = .error "Invalid octant index") ∧
    (exD.getOctantDomain 8 = .error "Invalid octant index") ∧
    ∃ d2, exD.getOctantDomain 3 = .ok d2 :=
  ⟨(getOctantDomain_range exD (-1)).1 (by omega),
   (getOctantDomain_range exD 8).1 (by omega),
   (getOctantDomain_range exD 3).2 (by omega) (by omega)⟩

/-- C10 counterexample: for the single-particle tree whose particle has left
the root Domain, `rebalanceTree` pops the only stack entry and then
reads the top of the now-empty stack — the embedded `EMPTY_STACK_TOP`
(undefined-behaviour) branch is reached from the public constructor and
entry point. -/
theorem rebalance_empty_stack_reached :
    exLeafRoot.particles = [0] ∧ exLeafRoot.children = [] ∧
    exDom.isInDomain (exPos2 0) = false ∧
    Octree.rebalanceTree 100 exPos2 exMass ⟨exLeafRoot⟩ =
      .error "EMPTY_STACK_TOP" :=
  ⟨rfl, rfl, rfl, rfl⟩

/-- C10 amended: the empty-stack read is reachable — whenever a displaced
leaf's walk finds no remaining ancestor whose Domain contains the new
position (in particular whenever the particle has left the root
Domain), the loop pops the entire stack and reads the top of the empty
stack; when some ancestor does contain the position, the "already held"
failure of `addParticle` preempts the read. -/
theorem rebalance_empty_stack_amended :
    ∀ (f : ℕ) (π : ℕ → Vec3) (μ : ℕ → ℚ) (p : ℕ) (com : Vec3) (m : ℚ)
      (d : Domain) (t : List Node),
      d.isInDomain (π p) = false →
      (∀ a ∈ t, a.domain.isInDomain (π p) = false) →
      Node.rebalanceNode (Nat.succ f) π μ (Node.mk com m d [p] [] :: t)
          (Node.mk com m d [p] []) = .error "EMPTY_STACK_TOP" := by
  intro f π μ p com m d t hout ht
  rw [Node.rebalanceNode_leaf_displaced f π μ p com m d t hout]
  exact walkUp_empty_top (Nat.succ f) π μ p (Node.mk com m d [p] []) t ht

/-- Witness for the amended C10 theorem: the single-particle root leaf. -/
theorem rebalance_empty_stack_amended_witness :
    Node.rebalanceNode (Nat.succ 99) exPos2 exMass
        [Node.mk ⟨-50, -50, -50⟩ 1 exDom [0] []]
        (Node.mk ⟨-50, -50, -50⟩ 1 exDom [0] []) = .error "EMPTY_STACK_TOP" :=
  rebalance_empty_stack_amended 99 exPos2 exMass 0 ⟨-50, -50, -50⟩ 1 exDom []
    (by rfl) (by intro a ha; simp at ha)
